import Mathlib

/-!
Verification development for the Frontend_development repository: shallow
embeddings of the JavaScript snippets (form validation, the Luhn credit-card
check, the debounce utility, the PeriodicTask class, the countdown timer, and
the localStorage / JSON helper functions from the notes), together with
theorems settling the specification's claims about them.

JavaScript strings are modelled as `List Char` (or as lists of UTF-16 code
units, `List Nat`, where character codes matter); regular-expression tests are
modelled with a small derivative-based matcher over character-class atoms;
browser storage is modelled as an association list from keys to strings.
-/

namespace FrontendDev

/-- The JavaScript regular-expression class `\s` (WhiteSpace and
LineTerminator code points, ECMA-262). -/
def jsWhitespace (c : Char) : Bool :=
  c.toNat = 0x20 ∨ c.toNat = 0x9 ∨ c.toNat = 0xa ∨ c.toNat = 0xb ∨
  c.toNat = 0xc ∨ c.toNat = 0xd ∨
  c.toNat = 0xa0 ∨ c.toNat = 0x1680 ∨ (0x2000 ≤ c.toNat ∧ c.toNat ≤ 0x200a) ∨
  c.toNat = 0x2028 ∨ c.toNat = 0x2029 ∨ c.toNat = 0x202f ∨ c.toNat = 0x205f ∨
  c.toNat = 0x3000 ∨ c.toNat = 0xfeff

/-- The JavaScript regular-expression class `\d`: the decimal digits, the code
points from that of 0 (48) to that of 9 (57). -/
def isDigitChar (c : Char) : Bool :=
  48 ≤ c.toNat ∧ c.toNat ≤ 57

/-! ### A small regular-expression matcher

The snippets test strings against regular expressions built from anchored
sequences of character classes (`/^[^\s@]+@[^\s@]+\.[^\s@]+$/`, `/^\d+$/`, …).
We embed such expressions with a minimal syntax whose atoms are character
classes, and decide matching with Brzozowski derivatives. -/

/-- Regular expressions over character-class atoms. -/
inductive RE where
  | emp : RE
  | eps : RE
  | cls (p : Char → Bool) : RE
  | cat (r s : RE) : RE
  | alt (r s : RE) : RE
  | star (r : RE) : RE

namespace RE

/-- Does the expression accept the empty string? -/
def matchEpsilon : RE → Bool
  | emp => false
  | eps => true
  | cls _ => false
  | cat r s => r.matchEpsilon && s.matchEpsilon
  | alt r s => r.matchEpsilon || s.matchEpsilon
  | star _ => true

/-- Brzozowski derivative with respect to one character. -/
def deriv : RE → Char → RE
  | emp, _ => emp
  | eps, _ => emp
  | cls p, a => if p a then eps else emp
  | cat r s, a =>
      if r.matchEpsilon then alt (cat (r.deriv a) s) (s.deriv a)
      else cat (r.deriv a) s
  | alt r s, a => alt (r.deriv a) (s.deriv a)
  | star r, a => cat (r.deriv a) (star r)

/-- Derivative-based matching: the model of JavaScript's anchored
`regex.test` on the embedded expressions. -/
def rmatch : RE → List Char → Bool
  | r, [] => r.matchEpsilon
  | r, a :: as => (r.deriv a).rmatch as

theorem emp_rmatch (x : List Char) : rmatch emp x = false := by
  induction x with
  | nil => rfl
  | cons a as ih => simpa [rmatch, deriv] using ih

theorem eps_rmatch_iff (x : List Char) : rmatch eps x = true ↔ x = [] := by
  cases x with
  | nil => simp [rmatch, matchEpsilon]
  | cons a as => simp [rmatch, deriv, emp_rmatch]

theorem cls_rmatch_iff (p : Char → Bool) (x : List Char) :
    rmatch (cls p) x = true ↔ ∃ c, x = [c] ∧ p c = true := by
  cases x with
  | nil => simp [rmatch, matchEpsilon]
  | cons a as =>
    simp only [rmatch, deriv]
    by_cases h : p a = true
    · rw [if_pos h, eps_rmatch_iff]
      constructor
      · rintro rfl; exact ⟨a, rfl, h⟩
      · rintro ⟨c, hc, _⟩
        cases hc; rfl
    · rw [if_neg h]
      simp only [emp_rmatch, Bool.false_eq_true, false_iff]
      rintro ⟨c, hc, hpc⟩
      cases hc
      exact h hpc

theorem alt_rmatch_iff (r s : RE) (x : List Char) :
    rmatch (alt r s) x = true ↔ rmatch r x = true ∨ rmatch s x = true := by
  induction x generalizing r s with
  | nil => simp [rmatch, matchEpsilon]
  | cons a as ih => simpa [rmatch, deriv] using ih (r.deriv a) (s.deriv a)

theorem cat_rmatch_iff (r s : RE) (x : List Char) :
    rmatch (cat r s) x = true ↔
      ∃ t u, x = t ++ u ∧ rmatch r t = true ∧ rmatch s u = true := by
  induction x generalizing r s with
  | nil =>
    simp only [rmatch, matchEpsilon, Bool.and_eq_true]
    constructor
    · rintro ⟨hr, hs⟩
      exact ⟨[], [], rfl, hr, hs⟩
    · rintro ⟨t, u, htu, hr, hs⟩
      rcases List.append_eq_nil.1 htu.symm with ⟨rfl, rfl⟩
      exact ⟨hr, hs⟩
  | cons a as ih =>
    simp only [rmatch, deriv]
    by_cases he : r.matchEpsilon = true
    · rw [he, if_pos rfl, alt_rmatch_iff]
      constructor
      · rintro (h | h)
        · rcases (ih _ _).1 h with ⟨t, u, rfl, hr, hs⟩
          exact ⟨a :: t, u, rfl, hr, hs⟩
        · exact ⟨[], a :: as, rfl, he, h⟩
      · rintro ⟨t, u, htu, hr, hs⟩
        cases t with
        | nil =>
          right
          cases htu
          exact hs
        | cons b t =>
          left
          rcases List.cons_eq_cons.1 htu with ⟨rfl, rfl⟩
          exact (ih _ _).2 ⟨t, u, rfl, hr, hs⟩
    · rw [if_neg he]
      rw [ih]
      constructor
      · rintro ⟨t, u, rfl, hr, hs⟩
        exact ⟨a :: t, u, rfl, hr, hs⟩
      · rintro ⟨t, u, htu, hr, hs⟩
        cases t with
        | nil =>
          cases htu
          exact absurd hr he
        | cons b t =>
          rcases List.cons_eq_cons.1 htu with ⟨rfl, rfl⟩
          exact ⟨t, u, rfl, hr, hs⟩

theorem star_rmatch_iff (r : RE) :
    ∀ x : List Char, rmatch (star r) x = true ↔
      ∃ S : List (List Char), x = S.flatten ∧ ∀ t ∈ S, t ≠ [] ∧ rmatch r t = true := by
  intro x
  have IH := fun t (_ : List.length t < List.length x) => star_rmatch_iff r t
  constructor
  · cases x with
    | nil => intro _; exact ⟨[], rfl, by simp⟩
    | cons a as =>
      rw [rmatch, deriv, cat_rmatch_iff]
      rintro ⟨t, u, hs, ht, hu⟩
      have hlen : u.length < (a :: as).length := by
        rw [hs, List.length_cons, List.length_append]
        omega
      rcases (IH u hlen).1 hu with ⟨S, rfl, hS⟩
      refine ⟨(a :: t) :: S, by simp [hs], ?_⟩
      intro t' ht'
      rcases List.mem_cons.1 ht' with rfl | h
      · exact ⟨by simp, by simpa [rmatch] using ht⟩
      · exact hS t' h
  · rintro ⟨S, rfl, hS⟩
    induction S with
    | nil => rfl
    | cons t S ihS =>
      rcases hS t (by simp) with ⟨hne, hmt⟩
      cases t with
      | nil => exact absurd rfl hne
      | cons b t =>
        simp only [List.flatten_cons, List.cons_append, rmatch, deriv, cat_rmatch_iff]
        refine ⟨t, S.flatten, rfl, by simpa [rmatch] using hmt, ?_⟩
        have hlen : S.flatten.length < ((b :: t) :: S).flatten.length := by
          simp only [List.flatten_cons, List.length_append, List.length_cons]
          omega
        exact (IH S.flatten hlen).2 ⟨S, rfl, fun u hu => hS u (by simp [hu])⟩
termination_by x => x.length

/-- One-or-more repetition of a character class, `[…]+`. -/
def plus (p : Char → Bool) : RE :=
  cat (cls p) (star (cls p))

theorem star_cls_rmatch_iff (p : Char → Bool) (x : List Char) :
    rmatch (star (cls p)) x = true ↔ ∀ c ∈ x, p c = true := by
  rw [star_rmatch_iff]
  constructor
  · rintro ⟨S, rfl, hS⟩ c hc
    rcases List.mem_flatten.1 hc with ⟨t, htS, hct⟩
    rcases (cls_rmatch_iff p t).1 (hS t htS).2 with ⟨d, rfl, hd⟩
    rcases List.mem_singleton.1 hct with rfl
    exact hd
  · intro h
    have hx : ∀ y : List Char, y = (y.map (fun c => [c])).flatten := by
      intro y
      induction y with
      | nil => rfl
      | cons c cs ih =>
        simp only [List.map_cons, List.flatten_cons, List.singleton_append,
          List.cons.injEq, true_and]
        exact ih
    refine ⟨x.map (fun c => [c]), hx x, ?_⟩
    intro t ht
    rcases List.mem_map.1 ht with ⟨c, hcx, rfl⟩
    exact ⟨by simp, (cls_rmatch_iff p [c]).2 ⟨c, rfl, h c hcx⟩⟩

theorem plus_rmatch_iff (p : Char → Bool) (x : List Char) :
    rmatch (plus p) x = true ↔ x ≠ [] ∧ ∀ c ∈ x, p c = true := by
  rw [plus, cat_rmatch_iff]
  constructor
  · rintro ⟨t, u, rfl, ht, hu⟩
    rcases (cls_rmatch_iff p t).1 ht with ⟨c, rfl, hc⟩
    have hall := (star_cls_rmatch_iff p u).1 hu
    refine ⟨by simp, ?_⟩
    intro d hd
    rcases List.mem_append.1 hd with h | h
    · rcases List.mem_singleton.1 h with rfl
      exact hc
    · exact hall d h
  · rintro ⟨hne, hall⟩
    cases x with
    | nil => exact absurd rfl hne
    | cons c cs =>
      refine ⟨[c], cs, rfl, (cls_rmatch_iff p [c]).2 ⟨c, rfl, hall c (by simp)⟩, ?_⟩
      exact (star_cls_rmatch_iff p cs).2 fun d hd => hall d (by simp [hd])

end RE

/-! ### Email validation (isValidEmail)

The source defines, twice and identically, a function isValidEmail that
returns the result of testing its argument against the anchored regular
expression written between slashes as `^[^\s@]+@[^\s@]+\.[^\s@]+$`. -/

/-- One character of the class `[^\s@]`: neither whitespace nor `@`. -/
def emailAtom (c : Char) : Bool :=
  !jsWhitespace c && c ≠ '@'

/-- The anchored regular expression `/^[^\s@]+@[^\s@]+\.[^\s@]+$/`. -/
def emailRE : RE :=
  .cat (.plus emailAtom)
    (.cat (.cls (fun c => c = '@'))
      (.cat (.plus emailAtom)
        (.cat (.cls (fun c => c = '.')) (.plus emailAtom))))

/-- The email check of the source: test the string against `emailRE`. -/
def isValidEmail (email : String) : Bool :=
  emailRE.rmatch email.toList

theorem emailAtom_iff (c : Char) :
    emailAtom c = true ↔ jsWhitespace c = false ∧ c ≠ '@' := by
  simp [emailAtom, Bool.and_eq_true, Bool.not_eq_true']

/-- C7: for every string s, the regex-based email field validation
isValidEmail(s) returns true if and only if s consists of a nonempty run of
characters that are neither whitespace nor `@`, then `@`, then a nonempty such
run, then a literal `.`, then a final nonempty such run. -/
theorem C7_isValidEmail_iff (s : String) :
    isValidEmail s = true ↔
      ∃ a b c : List Char,
        s.toList = a ++ '@' :: (b ++ '.' :: c) ∧
        a ≠ [] ∧ b ≠ [] ∧ c ≠ [] ∧
        (∀ ch ∈ a, jsWhitespace ch = false ∧ ch ≠ '@') ∧
        (∀ ch ∈ b, jsWhitespace ch = false ∧ ch ≠ '@') ∧
        (∀ ch ∈ c, jsWhitespace ch = false ∧ ch ≠ '@') := by
  unfold isValidEmail emailRE
  rw [RE.cat_rmatch_iff]
  constructor
  · rintro ⟨a, u, hs, ha, hu⟩
    rw [RE.cat_rmatch_iff] at hu
    rcases hu with ⟨t2, u2, rfl, ht2, hu2⟩
    rcases (RE.cls_rmatch_iff _ t2).1 ht2 with ⟨c2, rfl, hc2⟩
    rw [RE.cat_rmatch_iff] at hu2
    rcases hu2 with ⟨b, u3, rfl, hb, hu3⟩
    rw [RE.cat_rmatch_iff] at hu3
    rcases hu3 with ⟨t4, c, rfl, ht4, hc⟩
    rcases (RE.cls_rmatch_iff _ t4).1 ht4 with ⟨c4, rfl, hc4⟩
    have hc2' : c2 = '@' := by simpa using hc2
    have hc4' : c4 = '.' := by simpa using hc4
    subst hc2'
    subst hc4'
    rcases (RE.plus_rmatch_iff _ a).1 ha with ⟨hane, haall⟩
    rcases (RE.plus_rmatch_iff _ b).1 hb with ⟨hbne, hball⟩
    rcases (RE.plus_rmatch_iff _ c).1 hc with ⟨hcne, hcall⟩
    refine ⟨a, b, c, by simpa using hs, hane, hbne, hcne, ?_, ?_, ?_⟩
    · exact fun ch h => (emailAtom_iff ch).1 (haall ch h)
    · exact fun ch h => (emailAtom_iff ch).1 (hball ch h)
    · exact fun ch h => (emailAtom_iff ch).1 (hcall ch h)
  · rintro ⟨a, b, c, hs, hane, hbne, hcne, haall, hball, hcall⟩
    refine ⟨a, '@' :: (b ++ '.' :: c), hs, ?_, ?_⟩
    · exact (RE.plus_rmatch_iff _ a).2 ⟨hane, fun ch h => (emailAtom_iff ch).2 (haall ch h)⟩
    · rw [RE.cat_rmatch_iff]
      refine ⟨['@'], b ++ '.' :: c, rfl, (RE.cls_rmatch_iff _ _).2 ⟨'@', rfl, by simp⟩, ?_⟩
      rw [RE.cat_rmatch_iff]
      refine ⟨b, '.' :: c, rfl,
        (RE.plus_rmatch_iff _ b).2 ⟨hbne, fun ch h => (emailAtom_iff ch).2 (hball ch h)⟩, ?_⟩
      rw [RE.cat_rmatch_iff]
      exact ⟨['.'], c, rfl, (RE.cls_rmatch_iff _ _).2 ⟨'.', rfl, by simp⟩,
        (RE.plus_rmatch_iff _ c).2 ⟨hcne, fun ch h => (emailAtom_iff ch).2 (hcall ch h)⟩⟩

/-! ### Credit-card validation (isValidCreditCard)

The source removes the class `[\s-]` globally from the input, rejects the
remainder unless it matches `/^\d+$/`, and then runs the Luhn loop: iterating
from the last character to the first with an alternating isEven flag that
starts false, doubling the digit when the flag is set and subtracting 9 from a
doubled digit exceeding 9, and finally testing the sum modulo 10. -/

/-- JS `parseInt` applied to one decimal digit character. -/
def digitVal (c : Char) : Nat :=
  c.toNat - 48

/-- The anchored regular expression `/^\d+$/` of the all-digits test. -/
def digitsRE : RE :=
  .plus isDigitChar

/-- The two statements `digit *= 2; if (digit > 9) digit -= 9;` of the loop
body, run when the isEven flag is set. -/
def luhnDouble (d : Nat) : Nat :=
  if d * 2 > 9 then d * 2 - 9 else d * 2

/-- The accumulation loop of isValidCreditCard, read over the cleaned card
characters from the last to the first (so the argument here is the reversed
character list), carrying the isEven flag. -/
def luhnLoop : List Char → Bool → Nat
  | [], _ => 0
  | c :: cs, isEven =>
      (if isEven then luhnDouble (digitVal c) else digitVal c) + luhnLoop cs (!isEven)

/-- The credit-card check of the source. -/
def isValidCreditCard (cardNumber : String) : Bool :=
  let cleaned := cardNumber.toList.filter (fun c => !(jsWhitespace c || c = '-'))
  if digitsRE.rmatch cleaned then decide (luhnLoop cleaned.reverse false % 10 = 0)
  else false

/-- The Luhn checksum as claim C8 words it: the sum over all digits, doubling
every second digit counted from the right and subtracting 9 from any doubled
digit exceeding 9. -/
def luhnChecksum (ds : List Nat) : Nat :=
  (ds.reverse.enum.map (fun p => if p.1 % 2 = 1 then luhnDouble p.2 else p.2)).sum

/-- isValidCreditCard exactly as claim C8 words it: first remove all spaces
and dashes, return false if the remainder is empty or contains a non-digit,
otherwise test whether the Luhn checksum is divisible by 10. -/
def creditCardClaimC8 (s : String) : Bool :=
  let cleaned := s.toList.filter (fun c => !(c = ' ' || c = '-'))
  if cleaned = [] then false
  else if cleaned.all isDigitChar then decide (luhnChecksum (cleaned.map digitVal) % 10 = 0)
  else false

/-- Claim C8 amended: the source removes every whitespace character (the
class `\s`), not only spaces, before the digit check and the checksum. -/
def creditCardSpec (s : String) : Bool :=
  let cleaned := s.toList.filter (fun c => !(jsWhitespace c || c = '-'))
  if cleaned = [] then false
  else if cleaned.all isDigitChar then decide (luhnChecksum (cleaned.map digitVal) % 10 = 0)
  else false

theorem luhnLoop_eq_enumFrom (l : List Char) :
    ∀ n : Nat, luhnLoop l (decide (n % 2 = 1)) =
      ((List.enumFrom n l).map
        (fun p => if p.1 % 2 = 1 then luhnDouble (digitVal p.2) else digitVal p.2)).sum := by
  induction l with
  | nil => intro n; simp [luhnLoop]
  | cons c cs ih =>
    intro n
    have hflag : (!decide (n % 2 = 1)) = decide ((n + 1) % 2 = 1) := by
      by_cases h : n % 2 = 1
      · have h2 : ¬((n + 1) % 2 = 1) := by omega
        simp [h, h2]
      · have h2 : (n + 1) % 2 = 1 := by omega
        simp [h, h2]
    simp only [luhnLoop, List.enumFrom_cons, List.map_cons, List.sum_cons, hflag, ih (n + 1),
      decide_eq_true_eq]

theorem luhnLoop_eq_checksum (l : List Char) :
    luhnLoop l.reverse false = luhnChecksum (l.map digitVal) := by
  have h0 : (false : Bool) = decide ((0 : Nat) % 2 = 1) := by simp
  rw [h0, luhnLoop_eq_enumFrom l.reverse 0, luhnChecksum, ← List.map_reverse, List.enum_map]
  simp only [List.enum, List.map_map]
  rfl

theorem digit_not_stripped (c : Char) (h : isDigitChar c = true) :
    (!(jsWhitespace c || c = '-')) = true := by
  simp only [isDigitChar, decide_eq_true_eq] at h
  have hw : jsWhitespace c = false := by
    simp only [jsWhitespace, decide_eq_false_iff_not]
    omega
  have hd : ¬(c = '-') := by
    intro hc
    have h45 : c.toNat = 45 := by rw [hc]; decide
    omega
  simp [hw, hd]

/-- C8 as stated fails: the source strips every whitespace character (the
regex class `[\s-]`), not only spaces and dashes, so on an input with an
embedded tab the code accepts where the claim's description rejects. -/
theorem C8_counterexample :
    isValidCreditCard "0\t0" = true ∧ creditCardClaimC8 "0\t0" = false := by
  constructor
  · decide
  · decide

/-- C8 amended (spaces generalised to whitespace): isValidCreditCard removes
all whitespace and dashes, returns false if the remainder is empty or has a
non-digit, and otherwise tests the Luhn checksum for divisibility by 10. -/
theorem C8_isValidCreditCard_eq_spec (s : String) :
    isValidCreditCard s = creditCardSpec s := by
  unfold isValidCreditCard creditCardSpec
  set cl := s.toList.filter (fun c => !(jsWhitespace c || c = '-')) with hcl
  by_cases h1 : cl = []
  · rw [h1]
    rfl
  · by_cases h2 : ∀ c ∈ cl, isDigitChar c = true
    · have hm : digitsRE.rmatch cl = true := (RE.plus_rmatch_iff _ cl).2 ⟨h1, h2⟩
      have hall : cl.all isDigitChar = true := List.all_eq_true.2 h2
      simp [hm, hall, h1, luhnLoop_eq_checksum]
    · have hm : digitsRE.rmatch cl = false := by
        rw [Bool.eq_false_iff]
        intro hmt
        exact h2 ((RE.plus_rmatch_iff _ cl).1 hmt).2
      have hall : cl.all isDigitChar = false := by
        rw [Bool.eq_false_iff]
        intro hc
        exact h2 (List.all_eq_true.1 hc)
      simp [hm, hall, h1]

/-- C1 as stated fails: the digit test (the one host-API call involved) cannot
distinguish the all-digit inputs 0 and 1, yet isValidCreditCard does — its
result depends on the hand-written Luhn computation, not on a single host API
call. -/
theorem C1_counterexample :
    digitsRE.rmatch (String.toList "0") = true ∧
    digitsRE.rmatch (String.toList "1") = true ∧
    isValidCreditCard "0" = true ∧
    isValidCreditCard "1" = false := by
  refine ⟨by decide, by decide, by decide, by decide⟩

/-- C1 amended: most snippets are thin host-API calls, but isValidCreditCard
implements an original algorithm — on a nonempty all-digit input its result is
the divisibility by 10 of the Luhn checksum it computes itself. -/
theorem C1_isValidCreditCard_luhn (s : String) (h1 : s.toList ≠ [])
    (h2 : ∀ c ∈ s.toList, isDigitChar c = true) :
    isValidCreditCard s = true ↔ luhnChecksum (s.toList.map digitVal) % 10 = 0 := by
  have hfix : s.toList.filter (fun c => !(jsWhitespace c || c = '-')) = s.toList :=
    List.filter_eq_self.2 (fun c hc => digit_not_stripped c (h2 c hc))
  have hm : digitsRE.rmatch s.toList = true := (RE.plus_rmatch_iff _ _).2 ⟨h1, h2⟩
  simp only [isValidCreditCard]
  rw [hfix, hm]
  simp [luhnLoop_eq_checksum]

theorem C1_witness :
    ((String.toList "0" ≠ [] ∧ ∀ c ∈ String.toList "0", isDigitChar c = true) ∧
      (isValidCreditCard "0" = true ↔
        luhnChecksum ((String.toList "0").map digitVal) % 10 = 0)) :=
  ⟨⟨by decide, by decide⟩, C1_isValidCreditCard_luhn "0" (by decide) (by decide)⟩

/-! ### Password validation (validatePassword)

The source builds an errors array with five checks (length, an `[A-Z]` test,
an `[a-z]` test, a `[0-9]` test, and a special-character-class test) and
returns an object with isValid set to whether the array stayed empty. -/

/-- The class `[A-Z]`. -/
def isUpperChar (c : Char) : Bool :=
  65 ≤ c.toNat ∧ c.toNat ≤ 90

/-- The class `[a-z]`. -/
def isLowerChar (c : Char) : Bool :=
  97 ≤ c.toNat ∧ c.toNat ≤ 122

/-- The special-character class of validatePassword: exclamation mark, at,
hash, dollar, percent, caret, ampersand, asterisk, parentheses, comma, dot,
question mark, double quote, colon, braces, pipe, less-than, greater-than. -/
def isSpecialChar (c : Char) : Bool :=
  c ∈ ['!', '@', '#', '$', '%', '^', '&', '*', '(', ')', ',', '.', '?', '"',
       ':', '\x7b', '\x7d', '|', '<', '>']

/-- An unanchored JavaScript `regex.test` whose pattern is one character
class: it searches the string for one character of the class. -/
def testClass (p : Char → Bool) (s : String) : Bool :=
  s.toList.any p

/-- Justification of `testClass`: searching equals matching the anchored
pattern dot-star, class, dot-star. -/
theorem testClass_eq_search (p : Char → Bool) (s : String) :
    testClass p s =
      (RE.cat (.star (.cls (fun _ => true)))
        (.cat (.cls p) (.star (.cls (fun _ => true))))).rmatch s.toList := by
  rw [Bool.eq_iff_iff]
  rw [testClass, List.any_eq_true, RE.cat_rmatch_iff]
  constructor
  · rintro ⟨c, hc, hpc⟩
    rcases List.mem_iff_append.1 hc with ⟨t, u, heq⟩
    refine ⟨t, c :: u, heq, (RE.star_cls_rmatch_iff _ t).2 (by simp), ?_⟩
    rw [RE.cat_rmatch_iff]
    exact ⟨[c], u, rfl, (RE.cls_rmatch_iff p [c]).2 ⟨c, rfl, hpc⟩,
      (RE.star_cls_rmatch_iff _ u).2 (by simp)⟩
  · rintro ⟨t, u, heq, _, hu⟩
    rw [RE.cat_rmatch_iff] at hu
    rcases hu with ⟨t2, u2, rfl, ht2, _⟩
    rcases (RE.cls_rmatch_iff p t2).1 ht2 with ⟨c, rfl, hpc⟩
    refine ⟨c, ?_, hpc⟩
    rw [heq]
    simp

/-- The object literal validatePassword returns. -/
structure ValidationResult where
  isValid : Bool
  errors : List String
deriving DecidableEq

/-- The validatePassword function of the source: five checks push error
messages; isValid is whether the errors array is empty. -/
def validatePassword (password : String) : ValidationResult :=
  let errors : List String :=
    (if password.length < 8 then ["Password must be at least 8 characters"] else []) ++
    (if !testClass isUpperChar password then
      ["Password must contain at least one uppercase letter"] else []) ++
    (if !testClass isLowerChar password then
      ["Password must contain at least one lowercase letter"] else []) ++
    (if !testClass isDigitChar password then
      ["Password must contain at least one number"] else []) ++
    (if !testClass isSpecialChar password then
      ["Password must contain at least one special character"] else [])
  { isValid := errors.length == 0, errors := errors }

theorem ite_singleton_eq_nil {c : Prop} [Decidable c] (x : String) :
    ((if c then [x] else []) = ([] : List String)) ↔ ¬c := by
  split <;> simp [*]

/-- C10: validatePassword's isValid is true exactly when the password has
length at least 8 and contains an uppercase letter, a lowercase letter, a
digit, and a special character; and isValid is true exactly when the returned
errors array is empty. -/
theorem C10_validatePassword_iff (p : String) :
    ((validatePassword p).isValid = true ↔
      (8 ≤ p.length ∧
        (∃ c ∈ p.toList, isUpperChar c = true) ∧
        (∃ c ∈ p.toList, isLowerChar c = true) ∧
        (∃ c ∈ p.toList, isDigitChar c = true) ∧
        (∃ c ∈ p.toList, isSpecialChar c = true))) ∧
    ((validatePassword p).isValid = true ↔ (validatePassword p).errors = []) := by
  have hval : (validatePassword p).isValid = ((validatePassword p).errors.length == 0) := rfl
  have hiff : (validatePassword p).isValid = true ↔ (validatePassword p).errors = [] := by
    rw [hval, beq_iff_eq, List.length_eq_zero]
  refine ⟨?_, hiff⟩
  rw [hiff]
  show ((if p.length < 8 then _ else []) ++ _ ++ _ ++ _ ++ _ = ([] : List String)) ↔ _
  simp only [List.append_eq_nil, ite_singleton_eq_nil, Bool.not_eq_true, Bool.not_eq_false',
    testClass, List.any_eq_true, Nat.not_lt, and_assoc]

/-! ### XOR obfuscation helpers (simpleEncrypt / simpleDecrypt)

The notes define simpleEncrypt as the XOR of each character code with the
cyclically repeated key character codes followed by btoa, and simpleDecrypt
as atob followed by the same XOR. Strings are modelled here as lists of UTF-16
code units; the host APIs btoa and atob are modelled as base64 encoding and
decoding over byte lists, btoa failing (none) on a code unit above 255 as in
the browser. The model of atob does not re-check that its input is base64
(the round-trip claims only exercise it on encoder output). -/

/-- The base64 alphabet as ASCII codes: A-Z, a-z, 0-9, plus, slash. -/
def b64char (v : Nat) : Nat :=
  if v < 26 then 65 + v
  else if v < 52 then 97 + (v - 26)
  else if v < 62 then 48 + (v - 52)
  else if v = 62 then 43
  else 47

/-- Inverse of the base64 alphabet. -/
def b64val (c : Nat) : Nat :=
  if 65 ≤ c ∧ c ≤ 90 then c - 65
  else if 97 ≤ c ∧ c ≤ 122 then c - 97 + 26
  else if 48 ≤ c ∧ c ≤ 57 then c - 48 + 52
  else if c = 43 then 62
  else 63

theorem b64val_b64char (v : Nat) (h : v < 64) : b64val (b64char v) = v := by
  unfold b64char b64val
  split_ifs <;> omega

theorem b64char_ne_61 (v : Nat) : b64char v ≠ 61 := by
  unfold b64char
  split_ifs <;> omega

/-- Base64 encoding: three bytes to four alphabet characters, with the
equals sign (ASCII 61) as padding. -/
def b64encode : List Nat → List Nat
  | [] => []
  | [a] => [b64char (a / 4), b64char (a % 4 * 16), 61, 61]
  | [a, b] => [b64char (a / 4), b64char (a % 4 * 16 + b / 16), b64char (b % 16 * 4), 61]
  | a :: b :: c :: rest =>
      b64char (a / 4) :: b64char (a % 4 * 16 + b / 16) ::
        b64char (b % 16 * 4 + c / 64) :: b64char (c % 64) :: b64encode rest

/-- Base64 decoding, the inverse on encoder output. -/
def b64decode : List Nat → Option (List Nat)
  | [] => some []
  | c1 :: c2 :: c3 :: c4 :: rest =>
      if c3 = 61 then
        if c4 = 61 ∧ rest = [] then some [b64val c1 * 4 + b64val c2 / 16] else none
      else if c4 = 61 then
        if rest = [] then
          some [b64val c1 * 4 + b64val c2 / 16, b64val c2 % 16 * 16 + b64val c3 / 4]
        else none
      else
        (b64decode rest).map
          (fun r => (b64val c1 * 4 + b64val c2 / 16) ::
            (b64val c2 % 16 * 16 + b64val c3 / 4) ::
            (b64val c3 % 4 * 64 + b64val c4) :: r)
  | _ => none

/-- The host btoa: base64 of a string all of whose code units are Latin-1,
an exception (none) otherwise. -/
def btoa (bytes : List Nat) : Option (List Nat) :=
  if bytes.all (fun x => x ≤ 255) then some (b64encode bytes) else none

/-- The host atob, modelled on base64 input. -/
def atob (chars : List Nat) : Option (List Nat) :=
  b64decode chars

theorem b64decode_encode (bytes : List Nat) (h : ∀ x ∈ bytes, x ≤ 255) :
    b64decode (b64encode bytes) = some bytes := by
  induction bytes using b64encode.induct with
  | case1 => rfl
  | case2 a =>
      have ha : a ≤ 255 := h a (by simp)
      have h1 := b64val_b64char (a / 4) (by omega)
      have h2 := b64val_b64char (a % 4 * 16) (by omega)
      simp only [b64encode, b64decode, if_pos, h1, h2, and_self, ite_true]
      simp only [Option.some.injEq, List.cons.injEq, and_true]
      omega
  | case3 a b =>
      have ha : a ≤ 255 := h a (by simp)
      have hb : b ≤ 255 := h b (by simp)
      have h1 := b64val_b64char (a / 4) (by omega)
      have h2 := b64val_b64char (a % 4 * 16 + b / 16) (by omega)
      have h3 := b64val_b64char (b % 16 * 4) (by omega)
      have hne : b64char (b % 16 * 4) ≠ 61 := b64char_ne_61 _
      simp only [b64encode, b64decode, if_neg hne, h1, h2, h3, ite_true, and_self]
      simp only [Option.some.injEq, List.cons.injEq, and_true]
      omega
  | case4 a b c rest ih =>
      have ha : a ≤ 255 := h a (by simp)
      have hb : b ≤ 255 := h b (by simp)
      have hc : c ≤ 255 := h c (by simp)
      have h1 := b64val_b64char (a / 4) (by omega)
      have h2 := b64val_b64char (a % 4 * 16 + b / 16) (by omega)
      have h3 := b64val_b64char (b % 16 * 4 + c / 64) (by omega)
      have h4 := b64val_b64char (c % 64) (by omega)
      have hne3 : b64char (b % 16 * 4 + c / 64) ≠ 61 := b64char_ne_61 _
      have hne4 : b64char (c % 64) ≠ 61 := b64char_ne_61 _
      have ihh := ih (fun x hx => h x (by simp [hx]))
      simp only [b64encode, b64decode, if_neg hne3, if_neg hne4, ihh, Option.map_some',
        h1, h2, h3, h4]
      simp only [Option.some.injEq, List.cons.injEq]
      refine ⟨by omega, by omega, by omega, trivial⟩

/-- The XOR loop shared by simpleEncrypt and simpleDecrypt: each code unit
XORed with the cyclically repeated key code units, starting at index i. -/
def xorFrom (key : List Nat) : Nat → List Nat → List Nat
  | _, [] => []
  | i, c :: cs => (c ^^^ key.getD (i % key.length) 0) :: xorFrom key (i + 1) cs

/-- simpleEncrypt of the notes: XOR with the key, then btoa. -/
def simpleEncrypt (text key : List Nat) : Option (List Nat) :=
  btoa (xorFrom key 0 text)

/-- simpleDecrypt of the notes: atob, then XOR with the key. -/
def simpleDecrypt (encrypted key : List Nat) : Option (List Nat) :=
  (atob encrypted).map (fun t => xorFrom key 0 t)

theorem xorFrom_involution (key : List Nat) (text : List Nat) :
    ∀ i, xorFrom key i (xorFrom key i text) = text := by
  induction text with
  | nil => intro i; rfl
  | cons c cs ih =>
      intro i
      simp [xorFrom, Nat.xor_cancel_right, ih (i + 1)]

/-- C9: decrypting an encryption with the same key returns the original text,
for a nonempty Latin-1 key and a text whose XOR with the key stays Latin-1
(so that btoa does not throw). -/
theorem C9_simpleDecrypt_simpleEncrypt (text key : List Nat) (_hk : key ≠ [])
    (_hkey : ∀ k ∈ key, k ≤ 255) (hx : ∀ x ∈ xorFrom key 0 text, x ≤ 255) :
    (simpleEncrypt text key).bind (fun e => simpleDecrypt e key) = some text := by
  unfold simpleEncrypt simpleDecrypt btoa atob
  have hall : (xorFrom key 0 text).all (fun x => x ≤ 255) = true := by
    rw [List.all_eq_true]
    intro x hxm
    exact decide_eq_true (hx x hxm)
  rw [if_pos hall, Option.some_bind, b64decode_encode _ hx, Option.map_some',
    xorFrom_involution]

theorem C9_witness :
    (simpleEncrypt [104, 105] [107]).bind (fun e => simpleDecrypt e [107]) = some [104, 105] :=
  C9_simpleDecrypt_simpleEncrypt [104, 105] [107] (by decide) (by decide) (by decide)

/-! ### Browser key-value storage (localStorage / sessionStorage)

A storage object is modelled as an association list from string keys to
string values with unique keys; setItem, getItem, removeItem are the host
API calls the snippets make. -/

/-- The content of one storage area. -/
abbrev Store := List (String × String)

/-- localStorage.removeItem. -/
def removeItem (st : Store) (k : String) : Store :=
  st.filter (fun p => p.1 ≠ k)

/-- localStorage.setItem: stores the value string under the key, replacing
any previous entry. -/
def setItem (st : Store) (k v : String) : Store :=
  (k, v) :: removeItem st k

/-- localStorage.getItem: the stored string, or none for the null of the
browser API. -/
def getItem (st : Store) (k : String) : Option String :=
  (st.find? (fun p => p.1 = k)).map (fun p => p.2)

theorem getItem_setItem_self (st : Store) (k v : String) :
    getItem (setItem st k v) k = some v := by
  simp [getItem, setItem, List.find?]

/-- JavaScript values as they appear in the storage snippets: strings,
(integer) numbers, plain objects, arrays. -/
inductive JSValue where
  | str (s : String)
  | num (n : Int)
  | object
  | array (elems : List JSValue)

mutual

/-- JavaScript implicit conversion to a string, as setItem applies it: a
number prints in decimal, a plain object prints as "[object Object]", an
array joins its converted elements with commas. -/
def jsToString : JSValue → String
  | .str s => s
  | .num n => toString n
  | .object => "[object Object]"
  | .array xs => String.intercalate "," (jsToStringList xs)

/-- The element conversions of an array. -/
def jsToStringList : List JSValue → List String
  | [] => []
  | x :: xs => jsToString x :: jsToStringList xs

end

/-- setItem as the snippets call it on a non-string value: JavaScript
converts the value to a string first. -/
def setItemJS (st : Store) (k : String) (v : JSValue) : Store :=
  setItem st k (jsToString v)

/-! ### The JSON model (JSON.stringify / JSON.parse)

JSON.parse and JSON.stringify are host APIs; the snippets call them when
storing structured values. We model them over a JSON value type with integer
numbers: stringify prints the standard compact form (escaping the quote and
the backslash inside strings), parse is a fueled recursive-descent parser.
The parse model is lenient where the snippets never go (it accepts a trailing
comma and does not re-validate surrogate ranges); on every stringify output
it is an exact inverse, which is what the claims exercise. -/

/-- JSON values, with integer numbers. -/
inductive Json where
  | null : Json
  | bool (b : Bool) : Json
  | num (n : Int) : Json
  | str (s : String) : Json
  | arr (elems : List Json) : Json
  | obj (members : List (String × Json)) : Json

/-- The decimal digit character of a digit value below ten. -/
def digitChar (d : Nat) : Char :=
  match d with
  | 0 => '0' | 1 => '1' | 2 => '2' | 3 => '3' | 4 => '4'
  | 5 => '5' | 6 => '6' | 7 => '7' | 8 => '8' | _ => '9'

/-- The decimal character list of a natural number, most significant digit
first, with fuel for the division recursion. -/
def natToCharsAux : Nat → Nat → List Char
  | 0, _ => []
  | fuel + 1, n =>
      if n < 10 then [digitChar n]
      else natToCharsAux fuel (n / 10) ++ [digitChar (n % 10)]

/-- The decimal character list of a natural number, most significant digit
first. -/
def natToChars (n : Nat) : List Char :=
  natToCharsAux (n + 1) n

theorem natToCharsAux_irrel : ∀ f1 f2 n : Nat, n < f1 → n < f2 →
    natToCharsAux f1 n = natToCharsAux f2 n := by
  intro f1
  induction f1 with
  | zero => intro f2 n h1; omega
  | succ f1 ih =>
    intro f2 n h1 h2
    cases f2 with
    | zero => omega
    | succ f2 =>
      simp only [natToCharsAux]
      by_cases h : n < 10
      · simp [h]
      · rw [if_neg h, if_neg h, ih f2 (n / 10) (by omega) (by omega)]

/-- The recursion equation of natToChars. -/
theorem natToChars_eq (n : Nat) :
    natToChars n = if n < 10 then [digitChar n]
      else natToChars (n / 10) ++ [digitChar (n % 10)] := by
  by_cases h : n < 10
  · simp [natToChars, natToCharsAux, h]
  · rw [if_neg h]
    show natToCharsAux (n + 1) n = _
    have hn : 0 < n := by omega
    have hdiv : n / 10 < n := Nat.div_lt_self hn (by omega)
    rw [natToCharsAux, if_neg h,
      natToCharsAux_irrel n (n / 10 + 1) (n / 10) (by omega) (by omega)]
    rfl

/-- JavaScript decimal printing of an integer. -/
def intToChars (n : Int) : List Char :=
  if n < 0 then '-' :: natToChars n.natAbs else natToChars n.toNat

/-- JSON escaping of one string character (quote and backslash). -/
def escapeChar (c : Char) : List Char :=
  if c = '"' ∨ c = '\\' then ['\\', c] else [c]

/-- JSON escaping of a string body. -/
def escapeStr : List Char → List Char
  | [] => []
  | c :: cs => escapeChar c ++ escapeStr cs

mutual

/-- JSON.stringify (model): the compact printed form of a value. -/
def stringifyChars : Json → List Char
  | .num n => intToChars n
  | .null => "null".toList
  | .bool b => (if b then "true" else "false").toList
  | .str s => '"' :: (escapeStr s.toList ++ ['"'])
  | .arr xs => '[' :: (stringifyElems xs ++ [']'])
  | .obj ms => '\x7b' :: (stringifyMems ms ++ ['\x7d'])

/-- The comma-separated element list of an array. -/
def stringifyElems : List Json → List Char
  | [] => []
  | [x] => stringifyChars x
  | x :: xs => stringifyChars x ++ (',' :: stringifyElems xs)

/-- The comma-separated member list of an object. -/
def stringifyMems : List (String × Json) → List Char
  | [] => []
  | [(k, v)] => '"' :: (escapeStr k.toList ++ ('"' :: ':' :: stringifyChars v))
  | (k, v) :: ms =>
      ('"' :: (escapeStr k.toList ++ ('"' :: ':' :: stringifyChars v))) ++
        (',' :: stringifyMems ms)

end

/-- JSON.stringify on strings. -/
def jsonStringify (j : Json) : String :=
  String.mk (stringifyChars j)

/-- Consume an expected literal character sequence. -/
def consumeLit : List Char → List Char → Option (List Char)
  | [], cs => some cs
  | _ :: _, [] => none
  | p :: ps, c :: cs => if c = p then consumeLit ps cs else none

/-- Longest digit run, accumulating the decimal value. -/
def parseDigits : Nat → List Char → Nat × List Char
  | acc, [] => (acc, [])
  | acc, c :: cs =>
      if isDigitChar c then parseDigits (acc * 10 + digitVal c) cs else (acc, c :: cs)

/-- Body of a JSON string after the opening quote, unescaping up to the
closing quote. -/
def parseStringBody : List Char → Option (List Char × List Char)
  | [] => none
  | c :: rest =>
      if c = '"' then some ([], rest)
      else if c = '\\' then
        match rest with
        | [] => none
        | e :: rest2 => (parseStringBody rest2).map (fun p => (e :: p.1, p.2))
      else (parseStringBody rest).map (fun p => (c :: p.1, p.2))

mutual

/-- One JSON value, by its leading character; the fuel bounds the recursion
depth. -/
def parseVal : Nat → List Char → Option (Json × List Char)
  | 0, _ => none
  | _ + 1, [] => none
  | fuel + 1, c :: rest =>
      if c = 'n' then (consumeLit ['u', 'l', 'l'] rest).map (fun r => (Json.null, r))
      else if c = 't' then (consumeLit ['r', 'u', 'e'] rest).map (fun r => (Json.bool true, r))
      else if c = 'f' then (consumeLit ['a', 'l', 's', 'e'] rest).map (fun r => (Json.bool false, r))
      else if c = '"' then (parseStringBody rest).map (fun p => (Json.str (String.mk p.1), p.2))
      else if c = '[' then (parseElems fuel rest).map (fun p => (Json.arr p.1, p.2))
      else if c = '\x7b' then (parseMems fuel rest).map (fun p => (Json.obj p.1, p.2))
      else if c = '-' then
        match rest with
        | d :: rest2 =>
            if isDigitChar d then
              let p := parseDigits (digitVal d) rest2
              some (Json.num (-(p.1 : Int)), p.2)
            else none
        | [] => none
      else if isDigitChar c then
        let p := parseDigits (digitVal c) rest
        some (Json.num (p.1 : Int), p.2)
      else none

/-- Array elements up to and including the closing bracket. -/
def parseElems : Nat → List Char → Option (List Json × List Char)
  | 0, _ => none
  | _ + 1, [] => none
  | fuel + 1, c :: cs =>
      if c = ']' then some ([], cs)
      else
        (parseVal fuel (c :: cs)).bind (fun p =>
          match p.2 with
          | ',' :: r2 => (parseElems fuel r2).map (fun q => (p.1 :: q.1, q.2))
          | ']' :: r2 => some ([p.1], r2)
          | _ => none)

/-- Object members up to and including the closing brace. -/
def parseMems : Nat → List Char → Option (List (String × Json) × List Char)
  | 0, _ => none
  | _ + 1, [] => none
  | fuel + 1, c :: cs =>
      if c = '\x7d' then some ([], cs)
      else if c = '"' then
        (parseStringBody cs).bind (fun kp =>
          match kp.2 with
          | ':' :: r2 =>
              (parseVal fuel r2).bind (fun vp =>
                match vp.2 with
                | ',' :: r3 =>
                    (parseMems fuel r3).map (fun q => ((String.mk kp.1, vp.1) :: q.1, q.2))
                | '\x7d' :: r3 => some ([(String.mk kp.1, vp.1)], r3)
                | _ => none)
          | _ => none)
      else none

end

/-- JSON.parse (model): parse the whole string as one value; none models the
exception of the host API. -/
def jsonParse (s : String) : Option Json :=
  match parseVal (2 * s.length + 2) s.toList with
  | some (v, []) => some v
  | _ => none

/-! #### Round-trip: parse of stringify -/

/-- Does the input not begin with a digit (so a number parse cannot run on)? -/
def headNotDigit : List Char → Bool
  | [] => true
  | c :: _ => !isDigitChar c

theorem consumeLit_append (pat rest : List Char) :
    consumeLit pat (pat ++ rest) = some rest := by
  induction pat with
  | nil => rfl
  | cons p ps ih => simp [consumeLit, ih]

theorem parseDigits_stop (acc : Nat) (rest : List Char) (h : headNotDigit rest = true) :
    parseDigits acc rest = (acc, rest) := by
  cases rest with
  | nil => rfl
  | cons c cs =>
    simp only [headNotDigit, Bool.not_eq_true'] at h
    simp [parseDigits, h]

/-- The decimal value of a digit run, continuing from an accumulator. -/
def charsVal (acc : Nat) (ds : List Char) : Nat :=
  ds.foldl (fun a c => a * 10 + digitVal c) acc

theorem parseDigits_digits (ds : List Char) (hds : ∀ c ∈ ds, isDigitChar c = true) :
    ∀ acc rest, headNotDigit rest = true →
      parseDigits acc (ds ++ rest) = (charsVal acc ds, rest) := by
  induction ds with
  | nil => intro acc rest h; exact parseDigits_stop acc rest h
  | cons c cs ih =>
    intro acc rest h
    have hc : isDigitChar c = true := hds c (by simp)
    simp only [List.cons_append, parseDigits, hc, if_true, charsVal, List.foldl_cons]
    exact ih (fun d hd => hds d (by simp [hd])) _ rest h

theorem digitVal_digitChar (d : Nat) (h : d < 10) : digitVal (digitChar d) = d := by
  interval_cases d <;> rfl

theorem isDigitChar_digitChar (d : Nat) (h : d < 10) : isDigitChar (digitChar d) = true := by
  interval_cases d <;> rfl

theorem natToChars_all_digits (m : Nat) : ∀ c ∈ natToChars m, isDigitChar c = true := by
  induction m using Nat.strong_induction_on with
  | _ m ih =>
    rw [natToChars_eq]
    by_cases h : m < 10
    · simp only [if_pos h, List.mem_singleton]
      rintro c rfl
      exact isDigitChar_digitChar m h
    · simp only [if_neg h, List.mem_append, List.mem_singleton]
      rintro c (hc | rfl)
      · exact ih (m / 10) (Nat.div_lt_self (by omega) (by omega)) c hc
      · exact isDigitChar_digitChar (m % 10) (by omega)

theorem natToChars_ne_nil (m : Nat) : natToChars m ≠ [] := by
  rw [natToChars_eq]
  by_cases h : m < 10
  · simp [h]
  · simp [h]

theorem charsVal_append (acc : Nat) (xs ys : List Char) :
    charsVal acc (xs ++ ys) = charsVal (charsVal acc xs) ys := by
  simp [charsVal, List.foldl_append]

theorem charsVal_natToChars (m : Nat) :
    ∀ acc, charsVal acc (natToChars m) = acc * 10 ^ (natToChars m).length + m := by
  induction m using Nat.strong_induction_on with
  | _ m ih =>
    intro acc
    rw [natToChars_eq]
    by_cases h : m < 10
    · simp only [if_pos h, charsVal, List.foldl_cons, List.foldl_nil, List.length_singleton,
        pow_one]
      rw [digitVal_digitChar m h]
    · have hdiv : m / 10 < m := Nat.div_lt_self (by omega) (by omega)
      simp only [if_neg h, charsVal_append, List.length_append, List.length_singleton]
      rw [ih (m / 10) hdiv acc]
      simp only [charsVal, List.foldl_cons, List.foldl_nil]
      rw [digitVal_digitChar (m % 10) (by omega)]
      rw [pow_succ]
      have h10 : m / 10 * 10 + m % 10 = m := by omega
      have hring : (acc * 10 ^ (natToChars (m / 10)).length + m / 10) * 10 + m % 10 =
          acc * (10 ^ (natToChars (m / 10)).length * 10) + (m / 10 * 10 + m % 10) := by
        ring
      rw [hring, h10]

/-- Parsing the printed digits of m, with anything non-digit after them. -/
theorem parseDigits_natToChars (m : Nat) (rest : List Char) (h : headNotDigit rest = true) :
    ∃ d ds, natToChars m = d :: ds ∧ isDigitChar d = true ∧
      parseDigits (digitVal d) (ds ++ rest) = (m, rest) := by
  obtain ⟨d, ds, hdds⟩ : ∃ d ds, natToChars m = d :: ds := by
    cases hnc : natToChars m with
    | nil => exact absurd hnc (natToChars_ne_nil m)
    | cons d ds => exact ⟨d, ds, rfl⟩
  have hall := natToChars_all_digits m
  rw [hdds] at hall
  refine ⟨d, ds, hdds, hall d (by simp), ?_⟩
  have hds : ∀ c ∈ ds, isDigitChar c = true := fun c hc => hall c (by simp [hc])
  rw [parseDigits_digits ds hds (digitVal d) rest h]
  have hv : charsVal 0 (natToChars m) = m := by
    rw [charsVal_natToChars m 0]
    omega
  rw [hdds] at hv
  simp only [charsVal, List.foldl_cons, Nat.zero_mul, Nat.zero_add] at hv
  simp only [charsVal]
  rw [hv]

theorem parseStringBody_escape (s : List Char) :
    ∀ rest, parseStringBody (escapeStr s ++ ('"' :: rest)) = some (s, rest) := by
  induction s with
  | nil =>
    intro rest
    simp only [escapeStr, List.nil_append]
    rw [parseStringBody.eq_def]
    simp
  | cons c cs ih =>
    intro rest
    by_cases h : c = '"' ∨ c = '\\'
    · simp only [escapeStr, escapeChar, if_pos h, List.cons_append, List.append_assoc,
        List.nil_append]
      rw [parseStringBody.eq_def]
      simp [ih rest]
    · simp only [escapeStr, escapeChar, if_neg h, List.cons_append, List.nil_append]
      push_neg at h
      rw [parseStringBody.eq_def]
      simp [h.1, h.2, ih rest]

mutual

/-- Fuel sufficient for parseVal on the printed form of a value. -/
def needV : Json → Nat
  | .arr xs => 1 + needElems xs
  | .obj ms => 1 + needMems ms
  | _ => 1

/-- Fuel sufficient for parseElems on a printed element list. -/
def needElems : List Json → Nat
  | [] => 1
  | x :: xs => 1 + needV x + needElems xs

/-- Fuel sufficient for parseMems on a printed member list. -/
def needMems : List (String × Json) → Nat
  | [] => 1
  | (_, v) :: ms => 1 + needV v + needMems ms

end

theorem needV_pos (v : Json) : 1 ≤ needV v := by
  cases v <;> simp [needV]

theorem needElems_pos (xs : List Json) : 1 ≤ needElems xs := by
  cases xs with
  | nil => simp [needElems]
  | cons x xs => simp only [needElems]; omega

theorem needMems_pos (ms : List (String × Json)) : 1 ≤ needMems ms := by
  cases ms with
  | nil => simp [needMems]
  | cons m ms => rcases m with ⟨k, v⟩; simp only [needMems]; omega

theorem digit_ne_delims (c : Char) (h : isDigitChar c = true) :
    c ≠ 'n' ∧ c ≠ 't' ∧ c ≠ 'f' ∧ c ≠ '"' ∧ c ≠ '[' ∧ c ≠ '\x7b' ∧ c ≠ '-' ∧
      c ≠ ']' ∧ c ≠ '\x7d' := by
  refine ⟨?_, ?_, ?_, ?_, ?_, ?_, ?_, ?_, ?_⟩ <;>
    · intro hc
      subst hc
      exact absurd h (by decide)

theorem natToChars_head (m : Nat) :
    ∃ d ds, natToChars m = d :: ds ∧ isDigitChar d = true := by
  obtain ⟨d, ds, hdds⟩ : ∃ d ds, natToChars m = d :: ds := by
    cases hnc : natToChars m with
    | nil => exact absurd hnc (natToChars_ne_nil m)
    | cons d ds => exact ⟨d, ds, rfl⟩
  have hall := natToChars_all_digits m
  rw [hdds] at hall
  exact ⟨d, ds, hdds, hall d (by simp)⟩

/-- The first character of a printed JSON value is never a closing bracket,
a closing brace, a comma or a colon. -/
theorem stringify_head_ne (v : Json) :
    ∃ c cs, stringifyChars v = c :: cs ∧ c ≠ ']' ∧ c ≠ '\x7d' := by
  cases v with
  | null => exact ⟨'n', ['u', 'l', 'l'], rfl, by decide, by decide⟩
  | bool b =>
    cases b with
    | false => exact ⟨'f', ['a', 'l', 's', 'e'], rfl, by decide, by decide⟩
    | true => exact ⟨'t', ['r', 'u', 'e'], rfl, by decide, by decide⟩
  | num n =>
    by_cases hn : n < 0
    · refine ⟨'-', natToChars n.natAbs, ?_, by decide, by decide⟩
      simp [stringifyChars, intToChars, hn]
    · obtain ⟨d, ds, hdds, hd⟩ := natToChars_head n.toNat
      obtain ⟨_, _, _, _, _, _, _, h8, h9⟩ := digit_ne_delims d hd
      refine ⟨d, ds, ?_, h8, h9⟩
      simp [stringifyChars, intToChars, hn, hdds]
  | str s => exact ⟨'"', escapeStr s.toList ++ ['"'], rfl, by decide, by decide⟩
  | arr xs => exact ⟨'[', stringifyElems xs ++ [']'], rfl, by decide, by decide⟩
  | obj ms => exact ⟨'\x7b', stringifyMems ms ++ ['\x7d'], rfl, by decide, by decide⟩

theorem string_mk_toList (s : String) : String.mk s.toList = s := rfl

/-- Round-trip of the JSON model, by strong induction on the fuel: with
enough fuel, parsing the printed form of a value (followed by anything that
does not extend a number literal) returns exactly the value. -/
theorem parse_stringify_rec (f : Nat) :
    (∀ v rest, needV v ≤ f → headNotDigit rest = true →
      parseVal f (stringifyChars v ++ rest) = some (v, rest)) ∧
    (∀ xs rest, needElems xs ≤ f →
      parseElems f (stringifyElems xs ++ (']' :: rest)) = some (xs, rest)) ∧
    (∀ ms rest, needMems ms ≤ f →
      parseMems f (stringifyMems ms ++ ('\x7d' :: rest)) = some (ms, rest)) := by
  induction f using Nat.strong_induction_on with
  | _ f IH =>
  rcases f with _ | f'
  · exact ⟨fun v rest hne _ => absurd hne (by have := needV_pos v; omega),
      fun xs rest hne => absurd hne (by have := needElems_pos xs; omega),
      fun ms rest hne => absurd hne (by have := needMems_pos ms; omega)⟩
  have IHf := IH f' (by omega)
  refine ⟨?_, ?_, ?_⟩
  · intro v rest hneed hrest
    cases v with
    | null =>
      simp only [stringifyChars, List.cons_append, List.nil_append]
      rw [parseVal.eq_def]
      simp [consumeLit]
    | bool b =>
      cases b <;>
        · simp only [stringifyChars, List.cons_append, List.nil_append]
          rw [parseVal.eq_def]
          simp [consumeLit]
    | num n =>
      by_cases hn : n < 0
      · obtain ⟨d, ds, hdds, hd, hpd⟩ := parseDigits_natToChars n.natAbs rest hrest
        simp only [stringifyChars, intToChars, if_pos hn, List.cons_append, hdds]
        rw [parseVal.eq_def]
        simp only [List.cons_append]
        simp [hd, hpd]
        rw [abs_of_neg hn, neg_neg]
      · obtain ⟨d, ds, hdds, hd, hpd⟩ := parseDigits_natToChars n.toNat rest hrest
        obtain ⟨h1, h2, h3, h4, h5, h6, h7, _, _⟩ := digit_ne_delims d hd
        simp only [stringifyChars, intToChars, if_neg hn, hdds, List.cons_append]
        rw [parseVal.eq_def]
        have hpos : ((n.toNat : Nat) : Int) = n := by omega
        simp [h1, h2, h3, h4, h5, h6, h7, hd, hpd, hpos]
    | str s =>
      simp only [stringifyChars, List.cons_append, List.append_assoc, List.singleton_append]
      rw [parseVal.eq_def]
      simp [parseStringBody_escape, string_mk_toList]
    | arr xs =>
      have hne : needElems xs ≤ f' := by
        simp only [needV] at hneed
        omega
      simp only [stringifyChars, List.cons_append, List.append_assoc, List.singleton_append]
      rw [parseVal.eq_def]
      simp [IHf.2.1 xs rest hne]
    | obj ms =>
      have hne : needMems ms ≤ f' := by
        simp only [needV] at hneed
        omega
      simp only [stringifyChars, List.cons_append, List.append_assoc, List.singleton_append]
      rw [parseVal.eq_def]
      simp [IHf.2.2 ms rest hne]
  · intro xs rest hneed
    cases xs with
    | nil =>
      simp only [stringifyElems, List.nil_append]
      rw [parseElems.eq_def]
      simp
    | cons x xs' =>
      obtain ⟨c, cs, hx, hc1, _⟩ := stringify_head_ne x
      cases xs' with
      | nil =>
        have hnx : needV x ≤ f' := by
          simp only [needElems] at hneed
          omega
        have hv := IHf.1 x (']' :: rest) hnx rfl
        have hx' : stringifyElems [x] ++ (']' :: rest) = c :: (cs ++ (']' :: rest)) := by
          simp only [stringifyElems, hx, List.cons_append]
        rw [hx']
        rw [parseElems.eq_def]
        have hback : c :: (cs ++ (']' :: rest)) = stringifyChars x ++ (']' :: rest) := by
          rw [hx, List.cons_append]
        simp only [if_neg hc1, hback, hv]
        simp
      | cons y ys =>
        have hnx : needV x ≤ f' := by
          simp only [needElems] at hneed
          omega
        have hnys : needElems (y :: ys) ≤ f' := by
          have h1 := needV_pos x
          simp only [needElems] at hneed ⊢
          omega
        have hv := IHf.1 x (',' :: (stringifyElems (y :: ys) ++ (']' :: rest))) hnx rfl
        have he := IHf.2.1 (y :: ys) rest hnys
        have hx' : stringifyElems (x :: y :: ys) ++ (']' :: rest) =
            c :: (cs ++ (',' :: (stringifyElems (y :: ys) ++ (']' :: rest)))) := by
          show stringifyChars x ++ (',' :: stringifyElems (y :: ys)) ++ (']' :: rest) = _
          rw [hx]
          simp [List.cons_append, List.append_assoc]
        rw [hx']
        rw [parseElems.eq_def]
        have hback : c :: (cs ++ (',' :: (stringifyElems (y :: ys) ++ (']' :: rest)))) =
            stringifyChars x ++ (',' :: (stringifyElems (y :: ys) ++ (']' :: rest))) := by
          rw [hx, List.cons_append]
        simp only [if_neg hc1, hback, hv]
        simp [he]
  · intro ms rest hneed
    cases ms with
    | nil =>
      simp only [stringifyMems, List.nil_append]
      rw [parseMems.eq_def]
      simp
    | cons m ms' =>
      rcases m with ⟨k, v⟩
      cases ms' with
      | nil =>
        have hnv : needV v ≤ f' := by
          simp only [needMems] at hneed
          omega
        have hv := IHf.1 v ('\x7d' :: rest) hnv rfl
        have hx' : stringifyMems [(k, v)] ++ ('\x7d' :: rest) =
            '"' :: (escapeStr k.toList ++ ('"' :: (':' :: (stringifyChars v ++ ('\x7d' :: rest))))) := by
          simp [stringifyMems, List.cons_append, List.append_assoc]
        rw [hx']
        rw [parseMems.eq_def]
        simp [parseStringBody_escape, hv, string_mk_toList]
      | cons m2 ms2 =>
        have hnv : needV v ≤ f' := by
          simp only [needMems] at hneed
          omega
        have hnms : needMems (m2 :: ms2) ≤ f' := by
          have h1 := needV_pos v
          simp only [needMems] at hneed ⊢
          omega
        have hv := IHf.1 v (',' :: (stringifyMems (m2 :: ms2) ++ ('\x7d' :: rest))) hnv rfl
        have he := IHf.2.2 (m2 :: ms2) rest hnms
        have hx' : stringifyMems ((k, v) :: m2 :: ms2) ++ ('\x7d' :: rest) =
            '"' :: (escapeStr k.toList ++ ('"' :: (':' :: (stringifyChars v ++
              (',' :: (stringifyMems (m2 :: ms2) ++ ('\x7d' :: rest))))))) := by
          show ('"' :: (escapeStr k.toList ++ ('"' :: ':' :: stringifyChars v))) ++
              (',' :: stringifyMems (m2 :: ms2)) ++ ('\x7d' :: rest) = _
          simp [List.cons_append, List.append_assoc]
        rw [hx']
        rw [parseMems.eq_def]
        simp [parseStringBody_escape, hv, he, string_mk_toList]

mutual

theorem needV_le : ∀ v : Json, needV v + 1 ≤ 2 * (stringifyChars v).length
  | .null => by simp [needV, stringifyChars]
  | .bool b => by cases b <;> simp [needV, stringifyChars]
  | .num n => by
      have h : 1 ≤ (stringifyChars (Json.num n)).length := by
        simp only [stringifyChars, intToChars]
        by_cases hn : n < 0
        · simp [hn]
        · rw [if_neg hn]
          obtain ⟨d, ds, hdds, _⟩ := natToChars_head n.toNat
          simp [hdds]
      simp only [needV]
      omega
  | .str s => by
      simp only [needV, stringifyChars, List.length_cons, List.length_append]
      omega
  | .arr xs => by
      have h := needElems_le xs
      simp only [needV, stringifyChars, List.length_cons, List.length_append,
        List.length_singleton]
      omega
  | .obj ms => by
      have h := needMems_le ms
      simp only [needV, stringifyChars, List.length_cons, List.length_append,
        List.length_singleton]
      omega

theorem needElems_le : ∀ xs : List Json, needElems xs ≤ 2 * (stringifyElems xs).length + 1
  | [] => by simp [needElems, stringifyElems]
  | [x] => by
      have h := needV_le x
      simp only [needElems, stringifyElems]
      omega
  | x :: y :: ys => by
      have h1 := needV_le x
      have h2 := needElems_le (y :: ys)
      simp only [needElems] at h2
      simp only [needElems, stringifyElems, List.length_append, List.length_cons]
      omega

theorem needMems_le : ∀ ms : List (String × Json), needMems ms ≤ 2 * (stringifyMems ms).length + 1
  | [] => by simp [needMems, stringifyMems]
  | [(k, v)] => by
      have h := needV_le v
      simp only [needMems, stringifyMems, List.length_cons, List.length_append]
      omega
  | (k, v) :: m2 :: ms2 => by
      have h1 := needV_le v
      have h2 := needMems_le (m2 :: ms2)
      rcases m2 with ⟨k2, v2⟩
      simp only [needMems] at h2
      simp only [needMems, stringifyMems, List.length_cons, List.length_append]
      omega

end

/-- The round-trip of the modelled host JSON API: parsing the printed form of
any JSON value gives back exactly that value. -/
theorem jsonParse_stringify (j : Json) : jsonParse (jsonStringify j) = some j := by
  have hlen : (jsonStringify j).length = (stringifyChars j).length := rfl
  have hfuel : needV j ≤ 2 * (jsonStringify j).length + 2 := by
    have := needV_le j
    omega
  have h := (parse_stringify_rec (2 * (jsonStringify j).length + 2)).1 j [] hfuel rfl
  rw [List.append_nil] at h
  have htl : (jsonStringify j).toList = stringifyChars j := rfl
  unfold jsonParse
  rw [htl, h]

theorem stringifyChars_ne_nil (j : Json) : stringifyChars j ≠ [] := by
  obtain ⟨c, cs, hx, _, _⟩ := stringify_head_ne j
  simp [hx]

theorem jsonStringify_ne_empty (j : Json) : jsonStringify j ≠ "" := by
  intro h
  have htl : (jsonStringify j).toList = stringifyChars j := rfl
  rw [h] at htl
  exact stringifyChars_ne_nil j htl.symm

/-! ### JSON helpers of the notes: safeJSONParse, the storage object,
StorageWithExpiry -/

/-- safeJSONParse of the notes: try JSON.parse, return the default on an
exception. -/
def safeJSONParse (s : String) (defaultValue : Json) : Json :=
  match jsonParse s with
  | some v => v
  | none => defaultValue

/-- storage.set of the notes: setItem with automatic JSON.stringify (its
try/catch around a quota error is modelled as a total write). -/
def storageSet (st : Store) (key : String) (value : Json) : Store :=
  setItem st key (jsonStringify value)

/-- storage.get of the notes: getItem, then JSON.parse of a truthy result,
with the default on null, on the empty string, and on a parse exception. -/
def storageGet (st : Store) (key : String) (defaultValue : Json) : Json :=
  match getItem st key with
  | none => defaultValue
  | some item =>
      if item = "" then defaultValue
      else
        match jsonParse item with
        | some v => v
        | none => defaultValue

/-- Field access on a parsed JSON object, as in item.value and item.expiry. -/
def jsonField (j : Json) (k : String) : Option Json :=
  match j with
  | .obj kvs => (kvs.find? (fun p => p.1 = k)).map (fun p => p.2)
  | _ => none

/-- StorageWithExpiry.set of the notes: store the value wrapped in an object
with an absolute expiry time, now plus the given minutes in milliseconds. -/
def sweSet (st : Store) (key : String) (value : Json) (expiryInMinutes now : Int) : Store :=
  setItem st key (jsonStringify (Json.obj
    [("value", value), ("expiry", Json.num (now + expiryInMinutes * 60 * 1000))]))

/-- StorageWithExpiry.get of the notes: null (none) on a missing key; on an
entry past its expiry, remove it and return null; otherwise the stored value.
Returns the result with the updated storage; an unparsable entry (where the
source would throw) is modelled as a null result. -/
def sweGet (st : Store) (key : String) (now : Int) : Option Json × Store :=
  match getItem st key with
  | none => (none, st)
  | some itemStr =>
      match jsonParse itemStr with
      | none => (none, st)
      | some item =>
          match jsonField item "expiry" with
          | some (.num e) =>
              if now > e then (none, removeItem st key)
              else (jsonField item "value", st)
          | _ => (jsonField item "value", st)

/-- C5: the try/catch JSON helpers never propagate an exception:
safeJSONParse returns the parse on valid JSON and the default otherwise, and
storage.get returns the parsed stored value when the key holds valid JSON and
the default when the key is absent or its value fails to parse. -/
theorem C5_safeJSONParse_storageGet :
    (∀ (s : String) (d v : Json), jsonParse s = some v → safeJSONParse s d = v) ∧
    (∀ (s : String) (d : Json), jsonParse s = none → safeJSONParse s d = d) ∧
    (∀ (st : Store) (k : String) (d : Json), getItem st k = none → storageGet st k d = d) ∧
    (∀ (st : Store) (k item : String) (d v : Json),
      getItem st k = some item → jsonParse item = some v → storageGet st k d = v) ∧
    (∀ (st : Store) (k item : String) (d : Json),
      getItem st k = some item → jsonParse item = none → storageGet st k d = d) := by
  refine ⟨?_, ?_, ?_, ?_, ?_⟩
  · intro s d v h
    simp [safeJSONParse, h]
  · intro s d h
    simp [safeJSONParse, h]
  · intro st k d h
    simp [storageGet, h]
  · intro st k item d v h hp
    have hne : item ≠ "" := by
      intro he
      rw [he] at hp
      have hnone : jsonParse "" = none := rfl
      rw [hnone] at hp
      cases hp
    simp [storageGet, h, hne, hp]
  · intro st k item d h hp
    by_cases hne : item = ""
    · simp [storageGet, h, hne]
    · simp [storageGet, h, hne, hp]

/-- Closed evaluations of safeJSONParse on one valid and one invalid input. -/
theorem safeJSONParse_eval :
    safeJSONParse "42" Json.null = Json.num 42 ∧
    safeJSONParse "not json" (Json.str "Guest") = Json.str "Guest" := by
  exact ⟨rfl, rfl⟩

/-- C4 as stated fails: the notes wrap the storage APIs with new contracts —
the storage helper adds automatic JSON serialisation and a default for a
missing key (where raw getItem gives null), and StorageWithExpiry adds a
per-entry expiry time. -/
theorem C4_counterexample :
    getItem [] "user" = none ∧
    storageGet [] "user" (Json.str "Guest") = Json.str "Guest" ∧
    storageGet (storageSet [] "count" (Json.num 42)) "count" Json.null = Json.num 42 ∧
    getItem (storageSet [] "count" (Json.num 42)) "count" = some "42" ∧
    sweGet (sweSet [] "temp" (Json.str "x") 30 0) "temp" 1800001 = (none, []) ∧
    sweGet (sweSet [] "temp" (Json.str "x") 30 0) "temp" 10 =
      (some (Json.str "x"), sweSet [] "temp" (Json.str "x") 30 0) := by
  exact ⟨rfl, rfl, rfl, rfl, rfl, rfl⟩

/-- C4 amended: the tutorial scripts do call localStorage, sessionStorage and
document.cookie directly, but the notes also define wrappers that give them
new contracts: storage.set/storage.get round-trip every JSON value and
default a missing key, and StorageWithExpiry removes an entry read after its
expiry and returns the stored value before it. -/
theorem C4_storage_wrappers (st : Store) (key : String) (v d : Json) :
    storageGet (storageSet st key v) key d = v ∧
    storageGet [] key d = d ∧
    (∀ m now tRead : Int, now + m * 60 * 1000 < tRead →
      sweGet (sweSet st key v m now) key tRead =
        (none, removeItem (sweSet st key v m now) key)) ∧
    (∀ m now tRead : Int, tRead ≤ now + m * 60 * 1000 →
      sweGet (sweSet st key v m now) key tRead = (some v, sweSet st key v m now)) := by
  have hget : getItem (storageSet st key v) key = some (jsonStringify v) :=
    getItem_setItem_self st key (jsonStringify v)
  refine ⟨?_, ?_, ?_, ?_⟩
  · simp [storageGet, hget, jsonStringify_ne_empty v, jsonParse_stringify]
  · simp [storageGet, getItem]
  · intro m now tRead hlt
    have hget2 : getItem (sweSet st key v m now) key =
        some (jsonStringify (Json.obj
          [("value", v), ("expiry", Json.num (now + m * 60 * 1000))])) :=
      getItem_setItem_self st key _
    simp only [sweGet, hget2, jsonParse_stringify]
    simp [jsonField, List.find?, if_pos hlt]
  · intro m now tRead hle
    have hget2 : getItem (sweSet st key v m now) key =
        some (jsonStringify (Json.obj
          [("value", v), ("expiry", Json.num (now + m * 60 * 1000))])) :=
      getItem_setItem_self st key _
    simp only [sweGet, hget2, jsonParse_stringify]
    have hnot : ¬(now + m * 60 * 1000 < tRead) := by omega
    simp [jsonField, List.find?, hnot]

/-- C6: localStorage and sessionStorage store strings: getItem after setItem
returns the stored string, a non-string value is stored as its string
conversion (42 as "42", a plain object as "[object Object]", the array of
red, green, blue as "red,green,blue"), only string values round-trip
unchanged, and JSON.stringify before setItem with JSON.parse after getItem
recovers the original JSON value. -/
theorem C6_storage_strings :
    (∀ (st : Store) (k : String) (v : JSValue),
      getItem (setItemJS st k v) k = some (jsToString v)) ∧
    jsToString (JSValue.num 42) = "42" ∧
    jsToString JSValue.object = "[object Object]" ∧
    jsToString (JSValue.array [.str "red", .str "green", .str "blue"]) = "red,green,blue" ∧
    (∀ v : JSValue, JSValue.str (jsToString v) = v ↔ ∃ s, v = JSValue.str s) ∧
    (∀ (st : Store) (k : String) (j : Json),
      getItem (setItem st k (jsonStringify j)) k = some (jsonStringify j) ∧
      jsonParse (jsonStringify j) = some j) := by
  refine ⟨?_, rfl, rfl, rfl, ?_, ?_⟩
  · intro st k v
    exact getItem_setItem_self st k (jsToString v)
  · intro v
    constructor
    · intro h
      exact ⟨jsToString v, h.symm⟩
    · rintro ⟨s, rfl⟩
      rfl
  · intro st k j
    exact ⟨getItem_setItem_self st k (jsonStringify j), jsonParse_stringify j⟩

/-! ### The PeriodicTask class and the countdown timer (claim C2)

PeriodicTask keeps isRunning and intervalId fields; start is a no-op when
running, otherwise it runs the callback once and schedules the interval
(the callback of the usage example, console.log, does not touch the task);
stop is a no-op when not running, otherwise it clears the interval and nulls
the id; restart is stop then start. The countdown timer keeps totalSeconds
(a JS number, modelled as Int), isRunning, and its interval handle; its tick
decrements and finishes (clamping to zero) at or below zero. -/

/-- The fields of a PeriodicTask instance. -/
structure PTState where
  isRunning : Bool
  intervalId : Option Nat

/-- The constructor: not running, null interval id. -/
def ptInit : PTState :=
  { isRunning := false, intervalId := none }

/-- start: if not running, mark running and store the id returned by
setInterval. -/
def ptStart (id : Nat) (s : PTState) : PTState :=
  if s.isRunning then s else { isRunning := true, intervalId := some id }

/-- stop: if running, clearInterval and null the id. -/
def ptStop (s : PTState) : PTState :=
  if s.isRunning then { isRunning := false, intervalId := none } else s

/-- restart: stop then start. -/
def ptRestart (id : Nat) (s : PTState) : PTState :=
  ptStart id (ptStop s)

/-- The invariant named by claim C2: isRunning is true exactly when
intervalId is non-null. -/
def ptInv (s : PTState) : Bool :=
  s.isRunning == s.intervalId.isSome

theorem ptInv_init : ptInv ptInit = true := rfl

theorem ptInv_start (id : Nat) (s : PTState) (h : ptInv s = true) :
    ptInv (ptStart id s) = true := by
  unfold ptStart
  by_cases hr : s.isRunning
  · simpa [hr] using h
  · simp [hr, ptInv]

theorem ptInv_stop (s : PTState) (h : ptInv s = true) : ptInv (ptStop s) = true := by
  unfold ptStop
  by_cases hr : s.isRunning
  · simp [hr, ptInv]
  · simpa [hr] using h

theorem ptInv_restart (id : Nat) (s : PTState) (h : ptInv s = true) :
    ptInv (ptRestart id s) = true :=
  ptInv_start id (ptStop s) (ptInv_stop s h)

/-- The proposition claim C2 denies: the constructor establishes, and start,
stop and restart preserve, the invariant that isRunning is true exactly when
intervalId is non-null. -/
def ptMaintainsInv : Prop :=
  ptInv ptInit = true ∧
  ∀ (id : Nat) (s : PTState), ptInv s = true →
    ptInv (ptStart id s) = true ∧ ptInv (ptStop s) = true ∧ ptInv (ptRestart id s) = true

/-- C2 as stated fails: the PeriodicTask operations do maintain the invariant
that isRunning is true exactly when intervalId is non-null. -/
theorem C2_counterexample : ptMaintainsInv :=
  ⟨ptInv_init, fun id s h => ⟨ptInv_start id s h, ptInv_stop s h, ptInv_restart id s h⟩⟩

/-- The state of the countdown timer snippet. -/
structure TimerState where
  totalSeconds : Int
  isRunning : Bool
  countdownInterval : Option Nat

/-- The initial script state: zero seconds, not running, null interval. -/
def timerInit : TimerState :=
  { totalSeconds := 0, isRunning := false, countdownInterval := none }

/-- startTimer, with the three number inputs (min 0) read when the timer is
at zero; a zero total refuses to start. -/
def timerStart (hours minutes seconds : Nat) (id : Nat) (s : TimerState) : TimerState :=
  if s.isRunning then s
  else
    let total : Int :=
      if s.totalSeconds = 0 then (hours * 3600 + minutes * 60 + seconds : Nat)
      else s.totalSeconds
    if total = 0 then { s with totalSeconds := total }
    else { totalSeconds := total, isRunning := true, countdownInterval := some id }

/-- The setInterval callback: decrement, and at or below zero finish —
clearInterval, clamp to zero, stop. The callback only runs while the
interval is scheduled. -/
def timerTick (s : TimerState) : TimerState :=
  if s.countdownInterval.isSome then
    let t := s.totalSeconds - 1
    if t ≤ 0 then { totalSeconds := 0, isRunning := false, countdownInterval := none }
    else { s with totalSeconds := t }
  else s

/-- pauseTimer: when running, clear the interval and stop. -/
def timerPause (s : TimerState) : TimerState :=
  if s.isRunning then { s with isRunning := false, countdownInterval := none } else s

/-- resetTimer: clear the interval, zero the clock, stop. -/
def timerReset (_ : TimerState) : TimerState :=
  { totalSeconds := 0, isRunning := false, countdownInterval := none }

theorem timer_nonneg_start (hours minutes seconds id : Nat) (s : TimerState)
    (h : 0 ≤ s.totalSeconds) : 0 ≤ (timerStart hours minutes seconds id s).totalSeconds := by
  unfold timerStart
  by_cases hr : s.isRunning
  · simpa [hr] using h
  · simp only [hr, if_false, Bool.false_eq_true]
    by_cases hz : s.totalSeconds = 0
    · simp only [hz, ite_true, if_pos trivial]
      by_cases hc : ((hours * 3600 + minutes * 60 + seconds : Nat) : Int) = 0
      · rw [if_pos hc]
        exact Int.natCast_nonneg _
      · rw [if_neg hc]
        exact Int.natCast_nonneg _
    · simp only [if_neg hz]
      exact h

theorem timer_nonneg_tick (s : TimerState) (h : 0 ≤ s.totalSeconds) :
    0 ≤ (timerTick s).totalSeconds := by
  unfold timerTick
  split
  · dsimp only
    split
    · simp
    · dsimp only
      omega
  · exact h

theorem timer_nonneg_pause (s : TimerState) (h : 0 ≤ s.totalSeconds) :
    0 ≤ (timerPause s).totalSeconds := by
  unfold timerPause
  split <;> simpa using h

theorem timer_nonneg_reset (s : TimerState) : 0 ≤ (timerReset s).totalSeconds := by
  simp [timerReset]

/-- C2 amended: the source does maintain nontrivial invariants — PeriodicTask
start/stop/restart preserve (isRunning exactly when intervalId is non-null)
from the constructor on, and every countdown-timer operation preserves a
non-negative totalSeconds. -/
theorem C2_invariants_maintained (id hours minutes seconds : Nat) (p : PTState)
    (t : TimerState) (hp : ptInv p = true) (ht : 0 ≤ t.totalSeconds) :
    ptInv (ptStart id p) = true ∧ ptInv (ptStop p) = true ∧
    ptInv (ptRestart id p) = true ∧
    0 ≤ (timerStart hours minutes seconds id t).totalSeconds ∧
    0 ≤ (timerTick t).totalSeconds ∧
    0 ≤ (timerPause t).totalSeconds ∧
    0 ≤ (timerReset t).totalSeconds :=
  ⟨ptInv_start id p hp, ptInv_stop p hp, ptInv_restart id p hp,
    timer_nonneg_start hours minutes seconds id t ht,
    timer_nonneg_tick t ht, timer_nonneg_pause t ht, timer_nonneg_reset t⟩

theorem C2_witness :
    ptInv (ptStart 0 ptInit) = true ∧ ptInv (ptStop ptInit) = true ∧
    ptInv (ptRestart 0 ptInit) = true ∧
    0 ≤ (timerStart 0 1 30 0 timerInit).totalSeconds ∧
    0 ≤ (timerTick timerInit).totalSeconds ∧
    0 ≤ (timerPause timerInit).totalSeconds ∧
    0 ≤ (timerReset timerInit).totalSeconds :=
  C2_invariants_maintained 0 0 1 30 ptInit timerInit (by decide) (by decide)

/-! ### The debounce utility (claim C3)

debounce(func, delay) returns a closure over a timeoutId variable; each call
runs clearTimeout(timeoutId) and then schedules the new call with setTimeout.
We model the closure together with the host timer queue: a world holds the
current time, the pending timers (id, fire time, argument), the next fresh
timer id, the arguments fired so far in order, and the closure's captured
timeoutId. -/

/-- The world of one debounced function. -/
structure DebounceWorld where
  now : Nat
  timers : List (Nat × Nat × Nat)
  nextId : Nat
  fired : List Nat
  timeoutId : Option Nat

/-- The world before any call: no timers, nothing fired, timeoutId still
undefined. -/
def dInit : DebounceWorld :=
  { now := 0, timers := [], nextId := 0, fired := [], timeoutId := none }

/-- clearTimeout on an optional id: removes the timer with that id; with
undefined (none) or an already-fired id it is the platform no-op. -/
def clearTimeoutOn (tid : Option Nat) (timers : List (Nat × Nat × Nat)) :
    List (Nat × Nat × Nat) :=
  timers.filter (fun t => some t.1 ≠ tid)

/-- One call of the debounced function: clearTimeout(timeoutId), then
timeoutId = setTimeout of the argument after delay, under a fresh id. -/
def dCall (delay arg : Nat) (w : DebounceWorld) : DebounceWorld :=
  { now := w.now
    timers := clearTimeoutOn w.timeoutId w.timers ++ [(w.nextId, w.now + delay, arg)]
    nextId := w.nextId + 1
    fired := w.fired
    timeoutId := some w.nextId }

/-- The host clock advances by n; timers that come due fire (their arguments
append to fired) and leave the queue. -/
def dElapse (n : Nat) (w : DebounceWorld) : DebounceWorld :=
  { now := w.now + n
    timers := w.timers.filter (fun t => ¬t.2.1 ≤ w.now + n)
    nextId := w.nextId
    fired := w.fired ++ (w.timers.filter (fun t => t.2.1 ≤ w.now + n)).map (fun t => t.2.2)
    timeoutId := w.timeoutId }

/-- External events: a call of the debounced function, or time passing. -/
inductive DEvent where
  | call (arg : Nat)
  | elapse (n : Nat)

/-- Run the events oldest first. -/
def dRun (delay : Nat) : List DEvent → DebounceWorld → DebounceWorld
  | [], w => w
  | e :: es, w =>
      dRun delay es (match e with
        | .call a => dCall delay a w
        | .elapse n => dElapse n w)

/-- The debounce invariant: every pending timer of this world is the one the
captured timeoutId names — hence there is at most one. -/
def dInv (w : DebounceWorld) : Prop :=
  match w.timers with
  | [] => True
  | [t] => w.timeoutId = some t.1
  | _ => False

theorem dInv_init : dInv dInit := trivial

theorem dInv_call (delay arg : Nat) (w : DebounceWorld) (h : dInv w) :
    dInv (dCall delay arg w) := by
  unfold dInv at h
  cases htimers : w.timers with
  | nil => simp [dInv, dCall, clearTimeoutOn, htimers]
  | cons t ts =>
    cases ts with
    | nil =>
      rw [htimers] at h
      simp [dInv, dCall, clearTimeoutOn, htimers, h]
    | cons t2 ts2 =>
      rw [htimers] at h
      exact h.elim

theorem dInv_elapse (n : Nat) (w : DebounceWorld) (h : dInv w) : dInv (dElapse n w) := by
  unfold dInv at h
  cases htimers : w.timers with
  | nil => simp [dInv, dElapse, htimers]
  | cons t ts =>
    cases ts with
    | nil =>
      rw [htimers] at h
      by_cases hd : t.2.1 ≤ w.now + n
      · simp [dInv, dElapse, htimers, hd]
      · have hd2 : w.now + n < t.2.1 := by omega
        simp [dInv, dElapse, htimers, hd, hd2, h]
    | cons t2 ts2 =>
      rw [htimers] at h
      exact h.elim

theorem dInv_run (delay : Nat) (evs : List DEvent) :
    ∀ w, dInv w → dInv (dRun delay evs w) := by
  induction evs with
  | nil => intro w h; exact h
  | cons e es ih =>
    intro w h
    cases e with
    | call a => exact ih _ (dInv_call delay a w h)
    | elapse n => exact ih _ (dInv_elapse n w h)

theorem dInv_length (w : DebounceWorld) (h : dInv w) : w.timers.length ≤ 1 := by
  unfold dInv at h
  cases htimers : w.timers with
  | nil => simp
  | cons t ts =>
    cases ts with
    | nil => simp
    | cons t2 ts2 =>
      rw [htimers] at h
      exact h.elim

/-- The arguments of the call events of a trace. -/
def callArgs (evs : List DEvent) : List Nat :=
  evs.filterMap (fun e => match e with | .call a => some a | .elapse _ => none)

/-- Everything that fires during a run was already fired, was pending, or is
the argument of one of the run's calls. -/
theorem dRun_fired_sub (delay : Nat) (evs : List DEvent) :
    ∀ w x, x ∈ (dRun delay evs w).fired →
      x ∈ w.fired ∨ x ∈ w.timers.map (fun t => t.2.2) ∨ x ∈ callArgs evs := by
  induction evs with
  | nil => intro w x hx; exact Or.inl hx
  | cons e es ih =>
    intro w x hx
    cases e with
    | call a =>
      rcases ih _ x hx with h | h | h
      · exact Or.inl h
      · simp only [dCall, List.map_append, List.mem_append] at h
        rcases h with h | h
        · refine Or.inr (Or.inl ?_)
          simp only [clearTimeoutOn] at h
          rcases List.mem_map.1 h with ⟨t, ht, rfl⟩
          exact List.mem_map_of_mem _ (List.mem_of_mem_filter ht)
        · refine Or.inr (Or.inr ?_)
          simp only [List.map_cons, List.map_nil, List.mem_singleton] at h
          subst h
          simp [callArgs]
      · refine Or.inr (Or.inr ?_)
        simp only [callArgs, List.filterMap_cons] at h ⊢
        simp [h]
    | elapse n =>
      rcases ih _ x hx with h | h | h
      · simp only [dElapse, List.mem_append] at h
        rcases h with h | h
        · exact Or.inl h
        · refine Or.inr (Or.inl ?_)
          rcases List.mem_map.1 h with ⟨t, ht, rfl⟩
          exact List.mem_map_of_mem _ (List.mem_of_mem_filter ht)
      · refine Or.inr (Or.inl ?_)
        simp only [dElapse] at h
        rcases List.mem_map.1 h with ⟨t, ht, rfl⟩
        exact List.mem_map_of_mem _ (List.mem_of_mem_filter ht)
      · refine Or.inr (Or.inr ?_)
        simpa [callArgs, List.filterMap_cons] using h

/-- C3 as stated fails, concretely: with delay 5, a call with 10 followed
1ms later by a call with 20 leaves exactly one pending timer, and running on
fires only 20 — the superseded first call never fires. -/
theorem C3_counterexample :
    (dRun 5 [DEvent.call 10, DEvent.elapse 1, DEvent.call 20] dInit).timers.length = 1 ∧
    (dRun 5 [DEvent.call 10, DEvent.elapse 1, DEvent.call 20, DEvent.elapse 5]
      dInit).fired = [20] :=
  ⟨rfl, rfl⟩

/-- C3 amended: the debounce utility does layer this semantics on
clearTimeout/setTimeout: after any event sequence at most one timer of the
debounced function is pending, and a call superseded by a later call within
the delay window never fires. -/
theorem C3_debounce_semantics (delay : Nat) (evs : List DEvent) (a b n : Nat)
    (tail : List DEvent) (hn : n < delay) (hab : a ≠ b) (hT : a ∉ callArgs tail) :
    (dRun delay evs dInit).timers.length ≤ 1 ∧
    a ∉ (dRun delay (DEvent.call a :: DEvent.elapse n :: DEvent.call b :: tail)
      dInit).fired := by
  refine ⟨dInv_length _ (dInv_run delay evs dInit dInv_init), ?_⟩
  intro hmem
  have hnle : ¬(0 + delay ≤ 0 + n) := by omega
  have hnle2 : ¬(delay ≤ n) := by omega
  have hw : dRun delay (DEvent.call a :: DEvent.elapse n :: DEvent.call b :: tail) dInit =
      dRun delay tail
        { now := 0 + n, timers := [(1, 0 + n + delay, b)], nextId := 2, fired := [],
          timeoutId := some 1 } := by
    simp [dRun, dCall, dElapse, dInit, clearTimeoutOn, hnle, hnle2]
  rw [hw] at hmem
  rcases dRun_fired_sub delay tail _ a hmem with h | h | h
  · simp at h
  · simp only [List.map_cons, List.map_nil, List.mem_singleton] at h
    exact hab h
  · exact hT h

theorem C3_witness :
    (dRun 5 [] dInit).timers.length ≤ 1 ∧
    (10 : Nat) ∉ (dRun 5 [DEvent.call 10, DEvent.elapse 1, DEvent.call 20] dInit).fired :=
  C3_debounce_semantics 5 [] 10 20 1 [] (by omega) (by decide) (by decide)

end FrontendDev
